import Mathlib

/-!
Verification of the range-resolution algorithm of `backtrace-ext`
(`short_frames_strict` in `src/lib.rs`).

The Rust function takes a `&Backtrace` (an ordered list of frames, each
holding an ordered list of symbols, each with an optional name) and returns
an iterator of `(frame, sub-symbol range)` pairs delimiting the "short
backtrace" region between the `rust_end_short_backtrace` and
`rust_begin_short_backtrace` marker symbols.

The embedding below mirrors the source block by block:
  * `scanSymbols` / `scanFrames` / `scanTrace`: the marker scan loop
    (lib.rs lines 100-125);
  * `validate`: the order check that discards misordered markers
    (lines 127-133);
  * `defaultBounds`, `applyStartClamp`, `applyEndClamp`, `computeBounds`:
    the default bounds and the two clamps (lines 135-186);
  * `sliceInclusive` + the final map in `short_frames_strict`: the
    emission (lines 188-208).  Rust's `&frames[a..=b]` panics when
    `b + 1 > frames.len()` or `a > b + 1`; `sliceInclusive` returns
    `none` exactly in those cases, so `short_frames_strict` returns
    `Option` with `none` modelling a panic.  The only other indexing in
    the source, `frames[idx]` on line 158, always receives an index
    produced by the scan and hence in bounds (lemma
    `endScanPos_valid` below justifies modelling it with `List.getD`).
-/

set_option autoImplicit false

namespace BacktraceExt

/-- A resolved symbol.  The Rust `BacktraceSymbol` exposes
`name() : Option<SymbolName>` whose `as_str()` is again an `Option`;
the algorithm reads nothing else of a symbol, so we model the composed
`symbol.name().and_then(|n| n.as_str())` as a single optional string. -/
structure Symbol where
  name : Option String
deriving DecidableEq

/-- A stack frame: an opaque instruction-pointer identity plus the list of
resolved symbols (several when inlining occurred, none when unresolved). -/
structure Frame where
  ip : Nat
  symbols : List Symbol
deriving DecidableEq

/-- A marker position: (frame index, subframe index). -/
abbrev Pos := Nat × Nat

/-- The end-marker name substring, `"rust_end_short_backtrace"` (lib.rs line 117). -/
def endMarkerName : String := "rust_end_short_backtrace"

/-- The begin-marker name substring, `"rust_begin_short_backtrace"` (lib.rs line 120). -/
def beginMarkerName : String := "rust_begin_short_backtrace"

/-- Does `hay` begin with `needle`?  (Helper for substring containment.) -/
def beginsWith : List Char → List Char → Bool
  | [], _ => true
  | _ :: _, [] => false
  | a :: as, b :: bs => a == b && beginsWith as bs

/-- Does some suffix of the haystack begin with the needle? -/
def hasSubstr (needle : List Char) : List Char → Bool
  | [] => beginsWith needle []
  | c :: rest => beginsWith needle (c :: rest) || hasSubstr needle rest

/-- Rust's `str::contains(pat)`: case-sensitive substring containment. -/
def strContains (hay pat : String) : Bool := hasSubstr pat.data hay.data

/-- Does a symbol's name contain the end-marker substring? (lib.rs line 117) -/
def symMatchesEnd (s : Symbol) : Bool :=
  match s.name with
  | some n => strContains n endMarkerName
  | none => false

/-- Does a symbol's name contain the begin-marker substring? (lib.rs line 120) -/
def symMatchesBegin (s : Symbol) : Bool :=
  match s.name with
  | some n => strContains n beginMarkerName
  | none => false

/-- Inner scan loop over the symbols of one frame (lib.rs lines 106-124).
`short_start` is overwritten on every end-marker match (last match wins);
`short_end` is written only while still `none` (first match wins). -/
def scanSymbols (frame_idx : Nat) : Nat → List Symbol → Option Pos × Option Pos →
    Option Pos × Option Pos
  | _, [], st => st
  | subframe_idx, sym :: rest, (short_start, short_end) =>
    let short_start := if symMatchesEnd sym then some (frame_idx, subframe_idx) else short_start
    let short_end :=
      if symMatchesBegin sym && short_end.isNone then some (frame_idx, subframe_idx)
      else short_end
    scanSymbols frame_idx (subframe_idx + 1) rest (short_start, short_end)

/-- Outer scan loop over frames (lib.rs lines 104-125). -/
def scanFrames : Nat → List Frame → Option Pos × Option Pos → Option Pos × Option Pos
  | _, [], st => st
  | frame_idx, f :: rest, st =>
    scanFrames (frame_idx + 1) rest (scanSymbols frame_idx 0 f.symbols st)

/-- The whole scan pass: returns `(short_start, short_end)`. -/
def scanTrace (frames : List Frame) : Option Pos × Option Pos :=
  scanFrames 0 frames (none, none)

/-- Rust's `>` on `(usize, usize)` tuples: lexicographic strict order
(used on line 129 as `start > end`). -/
def posGtP (a b : Pos) : Prop := b.1 < a.1 ∨ (a.1 = b.1 ∧ b.2 < a.2)

instance posGtP.decide (a b : Pos) : Decidable (posGtP a b) := by
  unfold posGtP; infer_instance

/-- Order validation (lib.rs lines 127-133): if both markers were found but
`short_start > short_end`, discard both. -/
def validate (scanned : Option Pos × Option Pos) : Option Pos × Option Pos :=
  match scanned with
  | (some s, some e) => if posGtP s e then (none, none) else (some s, some e)
  | st => st

/-- The four mutable bound variables of lib.rs lines 136-145. -/
structure Bounds where
  first_frame : Nat
  first_subframe : Nat
  last_frame : Nat
  last_subframe_excl : Nat
deriving DecidableEq

/-- Default bounds: the whole trace (lib.rs lines 136-145).
`last_frame = frames.len().saturating_sub(1)` and `last_subframe_excl`
is the symbol count of the last frame, or `0` for an empty trace. -/
def defaultBounds (frames : List Frame) : Bounds :=
  { first_frame := 0
    first_subframe := 0
    last_frame := frames.length - 1
    last_subframe_excl := (frames.getLast?.map (fun f => f.symbols.length)).getD 0 }

/-- Start clamp (lib.rs lines 156-169), applied when `short_start` survived
validation.  Reads `b.last_frame`, which at this point still holds the
default value, exactly as in the source. -/
def applyStartClamp (frames : List Frame) (b : Bounds) : Option Pos → Bounds
  | none => b
  | some (idx, sub_idx) =>
    if (frames.getD idx ⟨0, []⟩).symbols.length = sub_idx + 1 then
      { b with first_frame := min (idx + 1) b.last_frame, first_subframe := 0 }
    else
      { b with first_frame := idx, first_subframe := sub_idx + 1 }

/-- End clamp (lib.rs lines 171-186), applied when `short_end` survived
validation.  `idx.saturating_sub(1)` is Nat subtraction `idx - 1`, and
`frames.get(last_frame).map(len).unwrap_or(0)` is the `Option` chain below. -/
def applyEndClamp (frames : List Frame) (b : Bounds) : Option Pos → Bounds
  | none => b
  | some (idx, sub_idx) =>
    if sub_idx = 0 then
      { b with last_frame := idx - 1
               last_subframe_excl :=
                 ((frames.get? (idx - 1)).map (fun f => f.symbols.length)).getD 0 }
    else
      { b with last_frame := idx, last_subframe_excl := sub_idx }

/-- The resolved bounds: scan, validate, then clamp both sides. -/
def computeBounds (frames : List Frame) : Bounds :=
  let scanned := validate (scanTrace frames)
  applyEndClamp frames (applyStartClamp frames (defaultBounds frames) scanned.1) scanned.2

/-- Rust's `&frames[a..=b]`: the slice `frames[a .. b+1]`, which panics
(`none`) unless `b + 1 ≤ frames.len()` and `a ≤ b + 1`. -/
def sliceInclusive (l : List Frame) (a b : Nat) : Option (List Frame) :=
  if b + 1 ≤ l.length ∧ a ≤ b + 1 then some ((l.drop a).take (b + 1 - a)) else none

/-- The whole resolver (lib.rs lines 97-209).  Returns `none` when the
emission slice would panic; otherwise the list of
`(frame, sub_start, sub_end_excl)` triples produced by the iterator
(`sub_start .. sub_end_excl` is the `Range<usize>` yielded in Rust). -/
def short_frames_strict (backtrace : List Frame) : Option (List (Frame × Nat × Nat)) :=
  let b := computeBounds backtrace
  let adjusted_last_frame := b.last_frame - b.first_frame
  match sliceInclusive backtrace b.first_frame b.last_frame with
  | none => none
  | some sliced =>
    some (sliced.enum.map (fun p =>
      let sub_start := if p.1 = 0 then b.first_subframe else 0
      let sub_end_excl :=
        if p.1 = adjusted_last_frame then b.last_subframe_excl else p.2.symbols.length
      (p.2, sub_start, sub_end_excl)))

/-! ## Specification-side definitions -/

/-- All `(position, symbol)` pairs of a trace in iteration order, frames
indexed from `i`. -/
def positionsFrom : Nat → List Frame → List (Pos × Symbol)
  | _, [] => []
  | i, f :: rest =>
    (f.symbols.enum.map (fun sp => ((i, sp.1), sp.2))) ++ positionsFrom (i + 1) rest

/-- All `(position, symbol)` pairs of a trace in iteration order. -/
def tracePositions (tr : List Frame) : List (Pos × Symbol) := positionsFrom 0 tr

/-- Positions whose symbol name contains the end-marker substring,
in iteration order. -/
def endMatchPositions (tr : List Frame) : List Pos :=
  ((tracePositions tr).filter (fun q => symMatchesEnd q.2)).map (fun q => q.1)

/-- Positions whose symbol name contains the begin-marker substring,
in iteration order. -/
def beginMatchPositions (tr : List Frame) : List Pos :=
  ((tracePositions tr).filter (fun q => symMatchesBegin q.2)).map (fun q => q.1)

/-- The unclamped output: every frame with its full symbol range. -/
def fullOutput (tr : List Frame) : List (Frame × Nat × Nat) :=
  tr.map (fun f => (f, 0, f.symbols.length))

/-- No single symbol of the trace matches both marker substrings at once. -/
def dualFree (tr : List Frame) : Prop :=
  ∀ f ∈ tr, ∀ s ∈ f.symbols, ¬(symMatchesEnd s = true ∧ symMatchesBegin s = true)

instance dualFree.decide (tr : List Frame) : Decidable (dualFree tr) := by
  unfold dualFree
  infer_instance

/-- No symbol of the trace matches either marker substring. -/
def noMarkers (tr : List Frame) : Prop :=
  ∀ f ∈ tr, ∀ s ∈ f.symbols, symMatchesEnd s = false ∧ symMatchesBegin s = false

instance noMarkers.decide (tr : List Frame) : Decidable (noMarkers tr) := by
  unfold noMarkers
  infer_instance

/-! ## Running-optimum combinators

`olast l a` is the last element of `l`, defaulting to `a`: the value of a
"keep overwriting" tracker seeded with `a`.  `ofirst a l` is `a` if already
set, else the head of `l`: a "first write wins" tracker seeded with `a`. -/

/-- Last element of `l` if any, else `a`. -/
def olast : List Pos → Option Pos → Option Pos
  | [], a => a
  | p :: rest, _ => olast rest (some p)

/-- `a` if it is `some`, else the head of `l` if any. -/
def ofirst : Option Pos → List Pos → Option Pos
  | some p, _ => some p
  | none, [] => none
  | none, p :: _ => some p

theorem olast_nil (a : Option Pos) : olast [] a = a := rfl

theorem olast_cons (p : Pos) (l : List Pos) (a : Option Pos) :
    olast (p :: l) a = olast l (some p) := rfl

theorem ofirst_nil (a : Option Pos) : ofirst a [] = a := by cases a <;> rfl

theorem ofirst_some (p : Pos) (l : List Pos) : ofirst (some p) l = some p := by
  cases l <;> rfl

theorem ofirst_none_cons (p : Pos) (l : List Pos) : ofirst none (p :: l) = some p := rfl

theorem olast_append (l₁ l₂ : List Pos) (a : Option Pos) :
    olast (l₁ ++ l₂) a = olast l₂ (olast l₁ a) := by
  induction l₁ generalizing a with
  | nil => rfl
  | cons p rest ih => exact ih (some p)

theorem ofirst_append (a : Option Pos) (l₁ l₂ : List Pos) :
    ofirst a (l₁ ++ l₂) = ofirst (ofirst a l₁) l₂ := by
  cases a with
  | some p => simp [ofirst_some]
  | none =>
    cases l₁ with
    | nil => rfl
    | cons p rest => simp [List.cons_append, ofirst_none_cons, ofirst_some]

theorem olast_some (l : List Pos) (p : Pos) : olast l (some p) = (p :: l).getLast? := by
  induction l generalizing p with
  | nil => rfl
  | cons q rest ih => rw [olast_cons, ih, List.getLast?_cons_cons]

theorem olast_none (l : List Pos) : olast l none = l.getLast? := by
  cases l with
  | nil => rfl
  | cons p rest => rw [olast_cons, olast_some]

theorem ofirst_none (l : List Pos) : ofirst none l = l.head? := by cases l <;> rfl

/-! ## Characterisation of the scan pass -/

/-- Positions of end-marker matches within one frame's symbols, the symbols
being indexed from `j` in frame `fi`. -/
def endMatchesFrom (fi j : Nat) (syms : List Symbol) : List Pos :=
  ((syms.enumFrom j).filter (fun sp => symMatchesEnd sp.2)).map (fun sp => (fi, sp.1))

/-- Positions of begin-marker matches within one frame's symbols. -/
def beginMatchesFrom (fi j : Nat) (syms : List Symbol) : List Pos :=
  ((syms.enumFrom j).filter (fun sp => symMatchesBegin sp.2)).map (fun sp => (fi, sp.1))

theorem scanSymbols_spec (fi : Nat) (syms : List Symbol) : ∀ (j : Nat)
    (st : Option Pos × Option Pos),
    scanSymbols fi j syms st =
      (olast (endMatchesFrom fi j syms) st.1, ofirst st.2 (beginMatchesFrom fi j syms)) := by
  induction syms with
  | nil =>
    intro j st
    simp [scanSymbols, endMatchesFrom, beginMatchesFrom, List.enumFrom, olast_nil, ofirst_nil]
  | cons sym rest ih =>
    intro j st
    obtain ⟨s0, e0⟩ := st
    simp only [scanSymbols]
    rw [ih]
    simp only [endMatchesFrom, beginMatchesFrom, List.enumFrom, List.filter_cons,
      Prod.mk.injEq]
    refine ⟨?_, ?_⟩
    · cases hE : symMatchesEnd sym <;> simp [hE, olast_cons]
    · cases hB : symMatchesBegin sym with
      | false => simp [hB]
      | true =>
        cases e0 with
        | none => simp [hB, ofirst_none_cons, ofirst_some]
        | some p => simp [hB, ofirst_some]

/-- Positions of end-marker matches in the frames `fs`, frames indexed
from `i`. -/
def endPosFrom (i : Nat) (fs : List Frame) : List Pos :=
  ((positionsFrom i fs).filter (fun q => symMatchesEnd q.2)).map (fun q => q.1)

/-- Positions of begin-marker matches in the frames `fs`. -/
def beginPosFrom (i : Nat) (fs : List Frame) : List Pos :=
  ((positionsFrom i fs).filter (fun q => symMatchesBegin q.2)).map (fun q => q.1)

theorem filter_map_comm {α β : Type} (g : α → β) (p : β → Bool) (l : List α) :
    (l.map g).filter p = (l.filter (fun x => p (g x))).map g := by
  induction l with
  | nil => rfl
  | cons x xs ih =>
    simp only [List.map_cons, List.filter_cons]
    cases h : p (g x) <;> simp [h, ih]

theorem positionsFrom_cons (i : Nat) (f : Frame) (rest : List Frame) :
    positionsFrom i (f :: rest) =
      (f.symbols.enum.map (fun sp => ((i, sp.1), sp.2))) ++ positionsFrom (i + 1) rest := rfl

theorem endPosFrom_cons (i : Nat) (f : Frame) (rest : List Frame) :
    endPosFrom i (f :: rest) = endMatchesFrom i 0 f.symbols ++ endPosFrom (i + 1) rest := by
  unfold endPosFrom
  rw [positionsFrom_cons, List.filter_append, List.map_append]
  congr 1
  rw [filter_map_comm, List.map_map]
  rfl

theorem beginPosFrom_cons (i : Nat) (f : Frame) (rest : List Frame) :
    beginPosFrom i (f :: rest) = beginMatchesFrom i 0 f.symbols ++ beginPosFrom (i + 1) rest := by
  unfold beginPosFrom
  rw [positionsFrom_cons, List.filter_append, List.map_append]
  congr 1
  rw [filter_map_comm, List.map_map]
  rfl

theorem scanFrames_spec (fs : List Frame) : ∀ (i : Nat) (st : Option Pos × Option Pos),
    scanFrames i fs st = (olast (endPosFrom i fs) st.1, ofirst st.2 (beginPosFrom i fs)) := by
  induction fs with
  | nil =>
    intro i st
    simp [scanFrames, endPosFrom, beginPosFrom, positionsFrom, olast_nil, ofirst_nil]
  | cons f rest ih =>
    intro i st
    simp only [scanFrames]
    rw [scanSymbols_spec, ih, endPosFrom_cons, beginPosFrom_cons, olast_append, ofirst_append]

/-- The scan pass records, as `short_start`, the LAST position in iteration
order whose symbol name contains the end-marker substring, and as
`short_end` the FIRST position whose symbol name contains the begin-marker
substring. -/
theorem scan_spec (tr : List Frame) :
    scanTrace tr = ((endMatchPositions tr).getLast?, (beginMatchPositions tr).head?) := by
  unfold scanTrace
  rw [scanFrames_spec]
  have h1 : endMatchPositions tr = endPosFrom 0 tr := rfl
  have h2 : beginMatchPositions tr = beginPosFrom 0 tr := rfl
  rw [h1, h2, olast_none, ofirst_none]

/-! ## Position validity -/

theorem mem_enumFrom_iff {α : Type} (l : List α) : ∀ (n : Nat) (p : Nat × α),
    p ∈ l.enumFrom n ↔ ∃ k, l.get? k = some p.2 ∧ p.1 = n + k := by
  induction l with
  | nil => intro n p; simp [List.enumFrom]
  | cons x xs ih =>
    intro n p
    simp only [List.enumFrom, List.mem_cons, ih]
    constructor
    · rintro (rfl | ⟨k, hk, hp⟩)
      · exact ⟨0, by simp, by simp⟩
      · exact ⟨k + 1, by simpa using hk, by omega⟩
    · rintro ⟨k, hk, hp⟩
      cases k with
      | zero =>
        left
        simp only [List.get?_cons_zero, Option.some.injEq] at hk
        obtain ⟨p1, p2⟩ := p
        simp only at hk hp
        simp [hk, hp]
      | succ k => right; exact ⟨k, by simpa using hk, by omega⟩

theorem mem_positionsFrom (fs : List Frame) : ∀ (i : Nat) (q : Pos × Symbol),
    q ∈ positionsFrom i fs ↔
      ∃ a b f, fs.get? a = some f ∧ f.symbols.get? b = some q.2 ∧ q.1 = (i + a, b) := by
  induction fs with
  | nil => intro i q; simp [positionsFrom]
  | cons f rest ih =>
    intro i q
    rw [positionsFrom_cons]
    simp only [List.mem_append, List.mem_map, ih]
    constructor
    · rintro (⟨sp, hsp, rfl⟩ | ⟨a, b, g, ha, hb, hq⟩)
      · rw [List.enum, mem_enumFrom_iff] at hsp
        obtain ⟨k, hk, h1⟩ := hsp
        refine ⟨0, sp.1, f, rfl, ?_, by simp⟩
        simp only [Nat.zero_add] at h1
        rw [← h1] at hk
        exact hk
      · refine ⟨a + 1, b, g, by simpa using ha, hb, ?_⟩
        rw [hq]
        congr 1
        omega
    · rintro ⟨a, b, g, ha, hb, hq⟩
      cases a with
      | zero =>
        left
        simp only [List.get?_cons_zero, Option.some.injEq] at ha
        subst ha
        refine ⟨(b, q.2), ?_, ?_⟩
        · rw [List.enum, mem_enumFrom_iff]
          exact ⟨b, hb, by simp⟩
        · obtain ⟨q1, q2⟩ := q
          simp only at hq
          simp [hq]
      | succ a =>
        right
        refine ⟨a, b, g, by simpa using ha, hb, ?_⟩
        rw [hq]
        congr 1
        omega

theorem endMatchPos_valid {tr : List Frame} {p : Pos} (h : p ∈ endMatchPositions tr) :
    ∃ f s, tr.get? p.1 = some f ∧ f.symbols.get? p.2 = some s ∧ symMatchesEnd s = true := by
  unfold endMatchPositions at h
  obtain ⟨q, hq, hpq⟩ := List.mem_map.mp h
  have hq' := List.mem_filter.mp hq
  obtain ⟨a, b, f, ha, hb, hq1⟩ := (mem_positionsFrom tr 0 q).mp hq'.1
  subst hpq
  rw [hq1]
  exact ⟨f, q.2, by simpa using ha, hb, hq'.2⟩

theorem beginMatchPos_valid {tr : List Frame} {p : Pos} (h : p ∈ beginMatchPositions tr) :
    ∃ f s, tr.get? p.1 = some f ∧ f.symbols.get? p.2 = some s ∧ symMatchesBegin s = true := by
  unfold beginMatchPositions at h
  obtain ⟨q, hq, hpq⟩ := List.mem_map.mp h
  have hq' := List.mem_filter.mp hq
  obtain ⟨a, b, f, ha, hb, hq1⟩ := (mem_positionsFrom tr 0 q).mp hq'.1
  subst hpq
  rw [hq1]
  exact ⟨f, q.2, by simpa using ha, hb, hq'.2⟩

/-- A `short_start` produced by the scan points at a real symbol that
matches the end marker (justifying the `frames[idx]` indexing on
lib.rs line 158). -/
theorem endScanPos_valid {tr : List Frame} {p : Pos} (h : (scanTrace tr).1 = some p) :
    ∃ f s, tr.get? p.1 = some f ∧ f.symbols.get? p.2 = some s ∧ symMatchesEnd s = true := by
  rw [scan_spec] at h
  exact endMatchPos_valid (List.mem_of_getLast?_eq_some h)

theorem beginScanPos_valid {tr : List Frame} {p : Pos} (h : (scanTrace tr).2 = some p) :
    ∃ f s, tr.get? p.1 = some f ∧ f.symbols.get? p.2 = some s ∧ symMatchesBegin s = true := by
  rw [scan_spec] at h
  exact beginMatchPos_valid (List.mem_of_mem_head? (Option.mem_def.mpr h))

/-! ## Validation lemmas -/

theorem validate_fst_some {sc : Option Pos × Option Pos} {p : Pos} {se : Option Pos}
    (h : validate sc = (some p, se)) : sc.1 = some p := by
  obtain ⟨s0, e0⟩ := sc
  cases s0 <;> cases e0 <;>
    simp only [validate, Prod.mk.injEq] at h ⊢
  · exact h.1
  · exact h.1
  · exact h.1
  · split at h
    · simp at h
    · simp only [Prod.mk.injEq] at h
      exact h.1

theorem validate_snd_some {sc : Option Pos × Option Pos} {ss : Option Pos} {q : Pos}
    (h : validate sc = (ss, some q)) : sc.2 = some q := by
  obtain ⟨s0, e0⟩ := sc
  cases s0 <;> cases e0 <;>
    simp only [validate, Prod.mk.injEq] at h ⊢
  · exact h.2
  · exact h.2
  · exact h.2
  · split at h
    · simp at h
    · simp only [Prod.mk.injEq] at h
      exact h.2

theorem validate_ordered {sc : Option Pos × Option Pos} {p q : Pos}
    (h : validate sc = (some p, some q)) : ¬posGtP p q := by
  obtain ⟨s0, e0⟩ := sc
  cases s0 <;> cases e0 <;> simp only [validate, Prod.mk.injEq] at h
  · exact absurd h.1 (by simp)
  · exact absurd h.1 (by simp)
  · exact absurd h.2 (by simp)
  · split at h
    · simp at h
    · rename_i hgt
      simp only [Prod.mk.injEq, Option.some.injEq] at h
      obtain ⟨h1, h2⟩ := h
      subst h1
      subst h2
      exact hgt

theorem validate_fst {sc : Option Pos × Option Pos} {p : Pos}
    (h : (validate sc).1 = some p) : sc.1 = some p := by
  have hv : validate sc = (some p, (validate sc).2) := by
    rw [show validate sc = ((validate sc).1, (validate sc).2) from rfl, h]
  exact validate_fst_some hv

theorem validate_snd {sc : Option Pos × Option Pos} {q : Pos}
    (h : (validate sc).2 = some q) : sc.2 = some q := by
  have hv : validate sc = ((validate sc).1, some q) := by
    rw [show validate sc = ((validate sc).1, (validate sc).2) from rfl, h]
  exact validate_snd_some hv

theorem validate_both {sc : Option Pos × Option Pos} {p q : Pos}
    (h1 : (validate sc).1 = some p) (h2 : (validate sc).2 = some q) : ¬posGtP p q := by
  have hv : validate sc = (some p, some q) := by
    rw [show validate sc = ((validate sc).1, (validate sc).2) from rfl, h1, h2]
  exact validate_ordered hv

/-! ## Bounds lemmas -/

theorem computeBounds_eq (tr : List Frame) :
    computeBounds tr =
      applyEndClamp tr
        (applyStartClamp tr (defaultBounds tr) (validate (scanTrace tr)).1)
        (validate (scanTrace tr)).2 := rfl

theorem applyStartClamp_some (fr : List Frame) (b : Bounds) (idx sub : Nat) :
    applyStartClamp fr b (some (idx, sub)) =
      if (fr.getD idx ⟨0, []⟩).symbols.length = sub + 1 then
        { b with first_frame := min (idx + 1) b.last_frame, first_subframe := 0 }
      else { b with first_frame := idx, first_subframe := sub + 1 } := rfl

theorem applyEndClamp_some (fr : List Frame) (b : Bounds) (idx sub : Nat) :
    applyEndClamp fr b (some (idx, sub)) =
      if sub = 0 then
        { b with last_frame := idx - 1
                 last_subframe_excl :=
                   ((fr.get? (idx - 1)).map (fun f => f.symbols.length)).getD 0 }
      else { b with last_frame := idx, last_subframe_excl := sub } := rfl

theorem applyEndClamp_keeps_first (fr : List Frame) (b : Bounds) (o : Option Pos) :
    (applyEndClamp fr b o).first_frame = b.first_frame ∧
    (applyEndClamp fr b o).first_subframe = b.first_subframe := by
  cases o with
  | none => exact ⟨rfl, rfl⟩
  | some p =>
    obtain ⟨idx, sub⟩ := p
    rw [applyEndClamp_some]
    refine ⟨?_, ?_⟩ <;> split <;> rfl

theorem applyStartClamp_keeps_last (fr : List Frame) (b : Bounds) (o : Option Pos) :
    (applyStartClamp fr b o).last_frame = b.last_frame ∧
    (applyStartClamp fr b o).last_subframe_excl = b.last_subframe_excl := by
  cases o with
  | none => exact ⟨rfl, rfl⟩
  | some p =>
    obtain ⟨idx, sub⟩ := p
    rw [applyStartClamp_some]
    refine ⟨?_, ?_⟩ <;> split <;> rfl

/-- The first-frame sub-clamp never exceeds the symbol count of the frame
it applies to. -/
theorem first_subframe_bound {tr : List Frame} {fr : Frame}
    (h : tr.get? (computeBounds tr).first_frame = some fr) :
    (computeBounds tr).first_subframe ≤ fr.symbols.length := by
  rw [computeBounds_eq] at h ⊢
  rw [(applyEndClamp_keeps_first tr _ _).1] at h
  rw [(applyEndClamp_keeps_first tr _ _).2]
  cases hss : (validate (scanTrace tr)).1 with
  | none => simp [applyStartClamp, defaultBounds]
  | some p =>
    obtain ⟨idx, sub⟩ := p
    obtain ⟨f, s, hf, hs, _⟩ := endScanPos_valid (validate_fst hss)
    rw [hss] at h
    rw [applyStartClamp_some] at h ⊢
    by_cases hc : (tr.getD idx ⟨0, []⟩).symbols.length = sub + 1
    · rw [if_pos hc]
      exact Nat.zero_le _
    · rw [if_neg hc] at h ⊢
      simp only at h ⊢
      have hfr : fr = f := by
        rw [h] at hf
        injection hf
      have hlt : sub < f.symbols.length := by
        obtain ⟨hl, _⟩ := List.get?_eq_some.mp hs
        exact hl
      rw [hfr]
      omega

/-- The last-frame sub-clamp never exceeds the symbol count of the frame
it applies to. -/
theorem last_excl_bound {tr : List Frame} {fr : Frame}
    (h : tr.get? (computeBounds tr).last_frame = some fr) :
    (computeBounds tr).last_subframe_excl ≤ fr.symbols.length := by
  rw [computeBounds_eq] at h ⊢
  cases hse : (validate (scanTrace tr)).2 with
  | none =>
    show (applyStartClamp tr (defaultBounds tr) (validate (scanTrace tr)).1).last_subframe_excl ≤ _
    rw [(applyStartClamp_keeps_last tr _ _).2]
    rw [hse] at h
    rw [show (applyEndClamp tr (applyStartClamp tr (defaultBounds tr)
          (validate (scanTrace tr)).1) none) = applyStartClamp tr (defaultBounds tr)
          (validate (scanTrace tr)).1 from rfl] at h
    rw [(applyStartClamp_keeps_last tr _ _).1] at h
    simp only [defaultBounds] at h ⊢
    rw [← List.getLast?_eq_get?] at h
    rw [h]
    simp
  | some p =>
    obtain ⟨idx, sub⟩ := p
    obtain ⟨f, s, hf, hs, _⟩ := beginScanPos_valid (validate_snd hse)
    rw [hse] at h
    rw [applyEndClamp_some] at h ⊢
    by_cases hc : sub = 0
    · rw [if_pos hc] at h ⊢
      simp only at h ⊢
      rw [h]
      simp
    · rw [if_neg hc] at h ⊢
      simp only at h ⊢
      have hfr : fr = f := by
        rw [h] at hf
        injection hf
      have hlt : sub < f.symbols.length := by
        obtain ⟨hl, _⟩ := List.get?_eq_some.mp hs
        exact hl
      rw [hfr]
      omega

/-! ## Emission lemmas -/

/-- The emission map of `short_frames_strict`, abstracted over the bounds. -/
def emitOutput (b : Bounds) (tr : List Frame) : List (Frame × Nat × Nat) :=
  ((tr.drop b.first_frame).take (b.last_frame + 1 - b.first_frame)).enum.map
    (fun p =>
      (p.2, (if p.1 = 0 then b.first_subframe else 0),
       (if p.1 = b.last_frame - b.first_frame then b.last_subframe_excl
        else p.2.symbols.length)))

theorem short_frames_strict_eq (tr : List Frame) :
    short_frames_strict tr =
      if (computeBounds tr).last_frame + 1 ≤ tr.length ∧
         (computeBounds tr).first_frame ≤ (computeBounds tr).last_frame + 1
      then some (emitOutput (computeBounds tr) tr) else none := by
  by_cases hc : (computeBounds tr).last_frame + 1 ≤ tr.length ∧
      (computeBounds tr).first_frame ≤ (computeBounds tr).last_frame + 1
  · simp [short_frames_strict, sliceInclusive, emitOutput, hc]
  · simp [short_frames_strict, sliceInclusive, emitOutput, hc]

theorem enumFrom_map_comp_snd {α β : Type} (h : α → β) (l : List α) : ∀ n : Nat,
    (l.enumFrom n).map (fun q => h q.2) = l.map h := by
  induction l with
  | nil => intro n; rfl
  | cons x xs ih => intro n; simp only [List.enumFrom, List.map_cons, ih]

/-- Every element of a successful emission: it is the frame at absolute index
`first_frame + i` paired with the sub-range dictated by its relative
position `i`. -/
theorem mem_short_out {tr : List Frame} {out : List (Frame × Nat × Nat)}
    {p : Frame × Nat × Nat}
    (h : short_frames_strict tr = some out) (hp : p ∈ out) :
    ∃ i fr, tr.get? ((computeBounds tr).first_frame + i) = some fr ∧
      i < (computeBounds tr).last_frame + 1 - (computeBounds tr).first_frame ∧
      p = (fr, (if i = 0 then (computeBounds tr).first_subframe else 0),
           (if i = (computeBounds tr).last_frame - (computeBounds tr).first_frame
            then (computeBounds tr).last_subframe_excl else fr.symbols.length)) := by
  rw [short_frames_strict_eq] at h
  split at h
  case isFalse => exact absurd h (by simp)
  case isTrue hc =>
    obtain ⟨hlen, hfl⟩ := hc
    have hout : emitOutput (computeBounds tr) tr = out := by
      injection h
    subst hout
    unfold emitOutput at hp
    obtain ⟨q, hq, hpq⟩ := List.mem_map.mp hp
    rw [List.enum, mem_enumFrom_iff] at hq
    obtain ⟨k, hk, hq1⟩ := hq
    have hq1' : q.1 = k := by omega
    have hklt : k < (computeBounds tr).last_frame + 1 - (computeBounds tr).first_frame := by
      obtain ⟨hl, _⟩ := List.get?_eq_some.mp hk
      rw [List.length_take] at hl
      omega
    have htr : tr.get? ((computeBounds tr).first_frame + k) = some q.2 := by
      rw [List.get?_take hklt] at hk
      rw [List.get?_drop] at hk
      exact hk
    refine ⟨k, q.2, htr, hklt, ?_⟩
    rw [← hpq, hq1']

/-- When the computed bounds are the defaults and the trace is nonempty, the
resolver yields the full trace with full per-frame ranges. -/
theorem output_default {tr : List Frame} (hne : tr ≠ [])
    (hb : computeBounds tr = defaultBounds tr) :
    short_frames_strict tr = some (fullOutput tr) := by
  have hlen : 0 < tr.length := List.length_pos.mpr hne
  rw [short_frames_strict_eq, hb]
  rw [if_pos (by constructor <;> simp [defaultBounds] <;> omega)]
  congr 1
  unfold emitOutput fullOutput
  simp only [defaultBounds]
  have hm : tr.length - 1 + 1 - 0 = tr.length := by omega
  rw [hm, List.drop_zero, List.take_length]
  have hcong : ∀ q ∈ tr.enum,
      ((q.2 : Frame), (if q.1 = 0 then 0 else 0),
        (if q.1 = tr.length - 1 - 0 then
          ((tr.getLast?.map (fun f => f.symbols.length)).getD 0) else q.2.symbols.length)) =
      (q.2, 0, q.2.symbols.length) := by
    intro q hq
    rw [List.enum, mem_enumFrom_iff] at hq
    obtain ⟨k, hk, hq1⟩ := hq
    refine Prod.ext rfl (Prod.ext (by simp) ?_)
    simp only
    split
    case isTrue hT =>
      have hkk : k = tr.length - 1 := by omega
      subst hkk
      rw [← List.getLast?_eq_get?] at hk
      rw [hk]
      rfl
    case isFalse => rfl
  rw [List.map_congr_left hcong]
  rw [List.enum]
  exact enumFrom_map_comp_snd (fun f : Frame => (f, (0 : Nat), f.symbols.length)) tr 0

/-! ## Scan consequences -/

theorem scanTrace_nil : scanTrace [] = (none, none) := rfl

theorem scan_none_of_noMarkers {tr : List Frame} (h : noMarkers tr) :
    scanTrace tr = (none, none) := by
  rw [scan_spec]
  have hend : endMatchPositions tr = [] := by
    unfold endMatchPositions
    rw [List.filter_eq_nil_iff.mpr ?_]
    · rfl
    · intro q hq
      obtain ⟨a, b, f, ha, hb, _⟩ := (mem_positionsFrom tr 0 q).mp hq
      have := (h f (List.get?_mem ha) q.2 (List.get?_mem hb)).1
      simp [this]
  have hbeg : beginMatchPositions tr = [] := by
    unfold beginMatchPositions
    rw [List.filter_eq_nil_iff.mpr ?_]
    · rfl
    · intro q hq
      obtain ⟨a, b, f, ha, hb, _⟩ := (mem_positionsFrom tr 0 q).mp hq
      have := (h f (List.get?_mem ha) q.2 (List.get?_mem hb)).2
      simp [this]
  rw [hend, hbeg]
  rfl

theorem scan_fst_ne_nil {tr : List Frame} {x : Pos} (h : (scanTrace tr).1 = some x) :
    tr ≠ [] := by
  intro hnil
  subst hnil
  simp [scanTrace_nil] at h

/-- Under `dualFree`, the two scan results never coincide. -/
theorem scan_pos_ne_of_dualFree {tr : List Frame} {p q : Pos} (hd : dualFree tr)
    (h1 : (scanTrace tr).1 = some p) (h2 : (scanTrace tr).2 = some q) : p ≠ q := by
  intro hpq
  subst hpq
  obtain ⟨f, s, hf, hs, hmE⟩ := endScanPos_valid h1
  obtain ⟨f', s', hf', hs', hmB⟩ := beginScanPos_valid h2
  rw [hf] at hf'
  have hff : f = f' := by injection hf'
  subst hff
  rw [hs] at hs'
  have hss : s = s' := by injection hs'
  subst hss
  exact hd f (List.get?_mem hf) s (List.get?_mem hs) ⟨hmE, hmB⟩

theorem computeBounds_default {tr : List Frame}
    (h : validate (scanTrace tr) = (none, none)) : computeBounds tr = defaultBounds tr := by
  rw [computeBounds_eq, h]
  rfl

/-! ## Clamp formula lemmas -/

theorem startClamp_formula (tr : List Frame) (idx sub : Nat) (se : Option Pos)
    (h : validate (scanTrace tr) = (some (idx, sub), se)) :
    ((tr.getD idx ⟨0, []⟩).symbols.length = sub + 1 →
        (computeBounds tr).first_frame = min (idx + 1) (defaultBounds tr).last_frame ∧
        (computeBounds tr).first_subframe = 0) ∧
    ((tr.getD idx ⟨0, []⟩).symbols.length ≠ sub + 1 →
        (computeBounds tr).first_frame = idx ∧
        (computeBounds tr).first_subframe = sub + 1) ∧
    (se = none →
        (computeBounds tr).last_frame = (defaultBounds tr).last_frame ∧
        (computeBounds tr).last_subframe_excl = (defaultBounds tr).last_subframe_excl) := by
  have h1 : (validate (scanTrace tr)).1 = some (idx, sub) := by rw [h]
  have h2 : (validate (scanTrace tr)).2 = se := by rw [h]
  refine ⟨?_, ?_, ?_⟩
  · intro hc
    rw [computeBounds_eq, h1, h2, (applyEndClamp_keeps_first tr _ se).1,
      (applyEndClamp_keeps_first tr _ se).2, applyStartClamp_some, if_pos hc]
    exact ⟨rfl, rfl⟩
  · intro hc
    rw [computeBounds_eq, h1, h2, (applyEndClamp_keeps_first tr _ se).1,
      (applyEndClamp_keeps_first tr _ se).2, applyStartClamp_some, if_neg hc]
    exact ⟨rfl, rfl⟩
  · intro hse
    subst hse
    rw [computeBounds_eq, h1, h2]
    refine ⟨?_, ?_⟩
    · show (applyStartClamp tr (defaultBounds tr) (some (idx, sub))).last_frame = _
      exact (applyStartClamp_keeps_last tr _ _).1
    · show (applyStartClamp tr (defaultBounds tr) (some (idx, sub))).last_subframe_excl = _
      exact (applyStartClamp_keeps_last tr _ _).2

theorem endClamp_formula (tr : List Frame) (idx sub : Nat) (ss : Option Pos)
    (h : validate (scanTrace tr) = (ss, some (idx, sub))) :
    (sub = 0 →
        (computeBounds tr).last_frame = idx - 1 ∧
        (computeBounds tr).last_subframe_excl =
          ((tr.get? (idx - 1)).map (fun f => f.symbols.length)).getD 0) ∧
    (sub ≠ 0 →
        (computeBounds tr).last_frame = idx ∧
        (computeBounds tr).last_subframe_excl = sub) ∧
    (ss = none →
        (computeBounds tr).first_frame = 0 ∧
        (computeBounds tr).first_subframe = 0) := by
  have h1 : (validate (scanTrace tr)).1 = ss := by rw [h]
  have h2 : (validate (scanTrace tr)).2 = some (idx, sub) := by rw [h]
  refine ⟨?_, ?_, ?_⟩
  · intro hc
    rw [computeBounds_eq, h1, h2, applyEndClamp_some, if_pos hc]
    exact ⟨rfl, rfl⟩
  · intro hc
    rw [computeBounds_eq, h1, h2, applyEndClamp_some, if_neg hc]
    exact ⟨rfl, rfl⟩
  · intro hss
    subst hss
    rw [computeBounds_eq, h1, h2]
    refine ⟨?_, ?_⟩
    · rw [(applyEndClamp_keeps_first tr _ _).1]
      rfl
    · rw [(applyEndClamp_keeps_first tr _ _).2]
      rfl

theorem computeBounds_first_of_none {tr : List Frame}
    (h : (validate (scanTrace tr)).1 = none) :
    (computeBounds tr).first_frame = 0 ∧ (computeBounds tr).first_subframe = 0 := by
  rw [computeBounds_eq, h]
  rw [(applyEndClamp_keeps_first tr _ _).1, (applyEndClamp_keeps_first tr _ _).2]
  exact ⟨rfl, rfl⟩

theorem computeBounds_last_of_none {tr : List Frame}
    (h : (validate (scanTrace tr)).2 = none) :
    (computeBounds tr).last_frame = (defaultBounds tr).last_frame ∧
    (computeBounds tr).last_subframe_excl = (defaultBounds tr).last_subframe_excl := by
  rw [computeBounds_eq, h]
  show (applyStartClamp tr (defaultBounds tr) (validate (scanTrace tr)).1).last_frame = _ ∧
    (applyStartClamp tr (defaultBounds tr) (validate (scanTrace tr)).1).last_subframe_excl = _
  exact ⟨(applyStartClamp_keeps_last tr _ _).1, (applyStartClamp_keeps_last tr _ _).2⟩

/-- Every emitted pair's exclusive range end is at most the symbol count of
its frame. -/
theorem pair_end_le_len {tr : List Frame} {out : List (Frame × Nat × Nat)}
    {p : Frame × Nat × Nat} (h : short_frames_strict tr = some out) (hp : p ∈ out) :
    p.2.2 ≤ p.1.symbols.length := by
  obtain ⟨i, fr, htr, hlt, hpeq⟩ := mem_short_out h hp
  subst hpeq
  show (if i = (computeBounds tr).last_frame - (computeBounds tr).first_frame
        then (computeBounds tr).last_subframe_excl else fr.symbols.length) ≤ fr.symbols.length
  by_cases hi : i = (computeBounds tr).last_frame - (computeBounds tr).first_frame
  · rw [if_pos hi]
    have heq : (computeBounds tr).first_frame + i = (computeBounds tr).last_frame := by omega
    rw [heq] at htr
    exact last_excl_bound htr
  · rw [if_neg hi]

/-- Under `dualFree`, every emitted pair's range start is at most its range
end. -/
theorem pair_start_le_end {tr : List Frame} {out : List (Frame × Nat × Nat)}
    {p : Frame × Nat × Nat} (hd : dualFree tr)
    (h : short_frames_strict tr = some out) (hp : p ∈ out) :
    p.2.1 ≤ p.2.2 := by
  obtain ⟨i, fr, htr, hlt, hpeq⟩ := mem_short_out h hp
  subst hpeq
  show (if i = 0 then (computeBounds tr).first_subframe else 0) ≤
    (if i = (computeBounds tr).last_frame - (computeBounds tr).first_frame
     then (computeBounds tr).last_subframe_excl else fr.symbols.length)
  by_cases hi0 : i = 0
  case neg => rw [if_neg hi0]; exact Nat.zero_le _
  rw [if_pos hi0]
  subst hi0
  have htr0 : tr.get? (computeBounds tr).first_frame = some fr := by simpa using htr
  by_cases hiL : (0 : Nat) = (computeBounds tr).last_frame - (computeBounds tr).first_frame
  case neg => rw [if_neg hiL]; exact first_subframe_bound htr0
  rw [if_pos hiL]
  have hfle : (computeBounds tr).first_frame = (computeBounds tr).last_frame := by omega
  cases hv1 : (validate (scanTrace tr)).1 with
  | none =>
    rw [(computeBounds_first_of_none hv1).2]
    exact Nat.zero_le _
  | some sp =>
    obtain ⟨sidx, ssub⟩ := sp
    have hpair1 : validate (scanTrace tr) = (some (sidx, ssub), (validate (scanTrace tr)).2) := by
      rw [show validate (scanTrace tr) =
        ((validate (scanTrace tr)).1, (validate (scanTrace tr)).2) from rfl, hv1]
    by_cases hcS : (tr.getD sidx ⟨0, []⟩).symbols.length = ssub + 1
    · rw [((startClamp_formula tr sidx ssub _ hpair1).1 hcS).2]
      exact Nat.zero_le _
    · have hfirst := (startClamp_formula tr sidx ssub _ hpair1).2.1 hcS
      obtain ⟨f, s, hfS, hsS, _⟩ := endScanPos_valid (validate_fst hv1)
      have hsublt : ssub < f.symbols.length := (List.get?_eq_some.mp hsS).1
      have hfrf : fr = f := by
        rw [hfirst.1] at htr0
        rw [htr0] at hfS
        injection hfS
      cases hv2 : (validate (scanTrace tr)).2 with
      | none =>
        have hlast := computeBounds_last_of_none hv2
        rw [hfirst.2, hlast.2]
        have hsidx : sidx = tr.length - 1 := by
          have h1 := hfle
          rw [hfirst.1, hlast.1] at h1
          simpa [defaultBounds] using h1
        have hgl : tr.getLast? = some f := by
          rw [List.getLast?_eq_get?, ← hsidx]
          exact hfS
        simp only [defaultBounds, hgl, Option.map_some', Option.getD_some]
        omega
      | some ep =>
        obtain ⟨eidx, esub⟩ := ep
        have hpair2 : validate (scanTrace tr) =
            ((validate (scanTrace tr)).1, some (eidx, esub)) := by
          rw [show validate (scanTrace tr) =
            ((validate (scanTrace tr)).1, (validate (scanTrace tr)).2) from rfl, hv2]
        by_cases hcE : esub = 0
        · have hlast := (endClamp_formula tr eidx esub _ hpair2).1 hcE
          rw [hfirst.2, hlast.2]
          have hsidx : sidx = eidx - 1 := by
            have h1 := hfle
            rw [hfirst.1, hlast.1] at h1
            exact h1
          rw [← hsidx, hfS]
          simp only [Option.map_some', Option.getD_some]
          omega
        · have hlast := (endClamp_formula tr eidx esub _ hpair2).2.1 hcE
          rw [hfirst.2, hlast.2]
          have heidx : sidx = eidx := by
            have h1 := hfle
            rw [hfirst.1, hlast.1] at h1
            exact h1
          subst heidx
          have hord := validate_both hv1 hv2
          have hne := scan_pos_ne_of_dualFree hd (validate_fst hv1) (validate_snd hv2)
          unfold posGtP at hord
          have hnesub : ssub ≠ esub := by
            intro hcon
            exact hne (by rw [hcon])
          have hle : ssub ≤ esub := by
            by_contra hcon
            exact hord (Or.inr ⟨rfl, by omega⟩)
          omega

/-! ## Concrete traces used by the claims -/

/-- Shorthand for a symbol with a resolved name. -/
def mkSym (s : String) : Symbol := ⟨some s⟩

/-- A name containing both marker substrings at once. -/
def dualMarkerName : String :=
  "rust_end_short_backtracerust_begin_short_backtrace"

/-- Boundary scenario A: end marker is the sole symbol of frame 1, begin
marker the first symbol of frame 3. -/
def trScenarioA : List Frame :=
  [⟨0, [mkSym "x"]⟩, ⟨1, [mkSym endMarkerName]⟩, ⟨2, [mkSym "a", mkSym "b"]⟩,
   ⟨3, [mkSym beginMarkerName]⟩, ⟨4, [mkSym "y"]⟩]

/-- Boundary scenario B: end marker at subframe 0 of a 3-symbol frame 1. -/
def trScenarioB : List Frame :=
  [⟨0, [mkSym "w"]⟩, ⟨1, [mkSym endMarkerName, mkSym "u", mkSym "v"]⟩]

/-- Boundary scenario D: a single frame holding both markers at adjacent
subframes, in the correct order. -/
def trScenarioD : List Frame :=
  [⟨0, [mkSym endMarkerName, mkSym beginMarkerName]⟩]

/-- A trace whose markers appear in the wrong relative order. -/
def trWrongOrder : List Frame :=
  [⟨0, [mkSym beginMarkerName]⟩, ⟨1, [mkSym endMarkerName]⟩]

/-- A trace with only the begin marker, not at subframe 0. -/
def trOnlyBegin : List Frame :=
  [⟨0, [mkSym "w", mkSym beginMarkerName]⟩, ⟨1, [mkSym "x"]⟩]

/-- A marker-free trace (second frame unresolved). -/
def trPlain : List Frame := [⟨0, [mkSym "main"]⟩, ⟨1, []⟩]

/-- A correctly bracketed trace spoiled by one extra end marker after the
begin marker. -/
def trSpurious : List Frame :=
  [⟨0, [mkSym endMarkerName]⟩, ⟨1, [mkSym "a"]⟩, ⟨2, [mkSym beginMarkerName]⟩,
   ⟨3, [mkSym endMarkerName]⟩]

/-! ## Claims -/

/-- Claim C1 (code bug): the spec says `short_frames_strict` never
panics and maps the empty trace to the empty sequence, but the code panics:
on the empty trace the bounds default to `first_frame = last_frame = 0` and
Rust's `&frames[0..=0]` is out of range for an empty slice; likewise a
middle frame whose single symbol matches both markers drives
`first_frame = last_frame + 2`, and `&frames[first..=last]` panics with an
inverted range.  Both panics are modelled by the `none` result. -/
theorem c1_empty_trace_panics :
    short_frames_strict [] = none ∧
    short_frames_strict
      [⟨0, [mkSym "f0"]⟩, ⟨1, [mkSym dualMarkerName]⟩, ⟨2, [mkSym "f2"]⟩] = none := by
  exact ⟨rfl, by decide⟩

/-- Claim C2, counterexample: on a single frame whose middle symbol matches
both markers at once, the emitted pair is `(frame, 2..1)` — an inverted
range, contradicting "every emitted (frame, range) pair satisfies
range.start ≤ range.end". -/
theorem c2_inverted_range_counterexample :
    short_frames_strict [⟨0, [mkSym "a", mkSym dualMarkerName, mkSym "b"]⟩] =
      some [(⟨0, [mkSym "a", mkSym dualMarkerName, mkSym "b"]⟩, 2, 1)] ∧
    ¬((2 : Nat) ≤ 1) := by
  exact ⟨by decide, by decide⟩

/-- Claim C2 (amended): whenever `short_frames_strict` returns a result,
`first_frame ≤ last_frame + 1` (the resolved frame range may be empty), every
emitted pair's range end is at most that frame's symbol count, and — provided
no single symbol matches both markers at once — every emitted pair also
satisfies `range.start ≤ range.end`. -/
theorem c2_range_wellformedness (tr : List Frame) (out : List (Frame × Nat × Nat))
    (h : short_frames_strict tr = some out) :
    (computeBounds tr).first_frame ≤ (computeBounds tr).last_frame + 1 ∧
    (∀ p ∈ out, p.2.2 ≤ p.1.symbols.length) ∧
    (dualFree tr → ∀ p ∈ out, p.2.1 ≤ p.2.2) := by
  refine ⟨?_, ?_, ?_⟩
  · rw [short_frames_strict_eq] at h
    split at h
    case isTrue hc => exact hc.2
    case isFalse => exact absurd h (by simp)
  · intro p hp
    exact pair_end_le_len h hp
  · intro hd p hp
    exact pair_start_le_end hd h hp

/-- Witness for C2 at boundary scenario D: the single frame holding both
markers at adjacent subframes yields the well-formed empty range `1..1`. -/
theorem c2_range_wellformedness_witness :
    short_frames_strict trScenarioD =
      some [(⟨0, [mkSym endMarkerName, mkSym beginMarkerName]⟩, 1, 1)] ∧
    ((computeBounds trScenarioD).first_frame ≤ (computeBounds trScenarioD).last_frame + 1 ∧
     (∀ p ∈ [((⟨0, [mkSym endMarkerName, mkSym beginMarkerName]⟩ : Frame), 1, 1)],
        p.2.2 ≤ p.1.symbols.length) ∧
     (dualFree trScenarioD →
        ∀ p ∈ [((⟨0, [mkSym endMarkerName, mkSym beginMarkerName]⟩ : Frame), 1, 1)],
          p.2.1 ≤ p.2.2)) :=
  ⟨by decide, c2_range_wellformedness trScenarioD _ (by decide)⟩

/-- Claim C3: the scan pass records as `short_start` the last end-marker
match in iteration order and as `short_end` the first begin-marker match;
matching is case-sensitive substring containment, not exact equality. -/
theorem c3_scan_last_end_first_begin :
    (∀ tr : List Frame,
        scanTrace tr = ((endMatchPositions tr).getLast?, (beginMatchPositions tr).head?)) ∧
    symMatchesEnd (mkSym "std::sys::backtrace::__rust_end_short_backtrace::h8ed3e6456") = true ∧
    "std::sys::backtrace::__rust_end_short_backtrace::h8ed3e6456" ≠ endMarkerName ∧
    symMatchesEnd (mkSym "RUST_END_SHORT_BACKTRACE") = false ∧
    symMatchesBegin (mkSym "std::rt::lang_start::__rust_begin_short_backtrace") = true ∧
    symMatchesBegin (mkSym "RUST_BEGIN_SHORT_BACKTRACE") = false :=
  ⟨scan_spec, by decide, by decide, by decide, by decide, by decide⟩

/-- Claim C4: if both markers are found and the end-marker position is
lexicographically greater than the begin-marker position, both are discarded
and the full unclamped trace is yielded; equal or correctly ordered
positions survive validation, so both clamps stay. -/
theorem c4_wrong_order_full_trace (tr : List Frame) (s e : Pos)
    (hscan : scanTrace tr = (some s, some e)) :
    (posGtP s e → short_frames_strict tr = some (fullOutput tr)) ∧
    (¬posGtP s e → validate (scanTrace tr) = (some s, some e)) := by
  constructor
  · intro hgt
    have hne : tr ≠ [] := scan_fst_ne_nil (by rw [hscan])
    have hval : validate (scanTrace tr) = (none, none) := by
      rw [hscan]
      simp only [validate]
      rw [if_pos hgt]
    exact output_default hne (computeBounds_default hval)
  · intro hle
    rw [hscan]
    simp only [validate]
    rw [if_neg hle]

/-- Witness for C4: begin marker in frame 0, end marker in frame 1 — wrong
order, so the full trace is yielded. -/
theorem c4_wrong_order_full_trace_witness :
    short_frames_strict trWrongOrder = some (fullOutput trWrongOrder) :=
  (c4_wrong_order_full_trace trWrongOrder (1, 0) (0, 0) (by decide)).1 (by decide)

/-- Claim C5: when the end-marker position `(idx, sub)` survives validation,
the start clamp sets `first_frame = min (idx+1) last_frame, first_subframe
= 0` if `sub` is the last symbol index of frame `idx`, else `first_frame =
idx, first_subframe = sub+1`; and when no begin marker survives, the tail
bounds stay at their defaults. -/
theorem c5_start_clamp (tr : List Frame) (idx sub : Nat) (se : Option Pos)
    (h : validate (scanTrace tr) = (some (idx, sub), se)) :
    ((tr.getD idx ⟨0, []⟩).symbols.length = sub + 1 →
        (computeBounds tr).first_frame = min (idx + 1) (defaultBounds tr).last_frame ∧
        (computeBounds tr).first_subframe = 0) ∧
    ((tr.getD idx ⟨0, []⟩).symbols.length ≠ sub + 1 →
        (computeBounds tr).first_frame = idx ∧
        (computeBounds tr).first_subframe = sub + 1) ∧
    (se = none →
        (computeBounds tr).last_frame = (defaultBounds tr).last_frame ∧
        (computeBounds tr).last_subframe_excl = (defaultBounds tr).last_subframe_excl) :=
  startClamp_formula tr idx sub se h

/-- Witness for C5 at scenario B: only the end marker, at `(1, 0)` in a
3-symbol frame, so the start clamp is `(1, 1)` and the tail stays default. -/
theorem c5_start_clamp_witness :
    (computeBounds trScenarioB).first_frame = 1 ∧
    (computeBounds trScenarioB).first_subframe = 1 ∧
    (computeBounds trScenarioB).last_frame = (defaultBounds trScenarioB).last_frame ∧
    (computeBounds trScenarioB).last_subframe_excl =
      (defaultBounds trScenarioB).last_subframe_excl := by
  have h := c5_start_clamp trScenarioB 1 0 none (by decide)
  exact ⟨(h.2.1 (by decide)).1, (h.2.1 (by decide)).2, (h.2.2 rfl).1, (h.2.2 rfl).2⟩

/-- Claim C6: when the begin-marker position `(idx, sub)` survives
validation, the end clamp sets `last_frame = idx - 1` (saturating) and
`last_subframe_excl` to that frame's symbol count (`0` if it does not
exist) if `sub = 0`, else `last_frame = idx, last_subframe_excl = sub`; and
when no end marker survives, the head bounds stay `0, 0`. -/
theorem c6_end_clamp (tr : List Frame) (idx sub : Nat) (ss : Option Pos)
    (h : validate (scanTrace tr) = (ss, some (idx, sub))) :
    (sub = 0 →
        (computeBounds tr).last_frame = idx - 1 ∧
        (computeBounds tr).last_subframe_excl =
          ((tr.get? (idx - 1)).map (fun f => f.symbols.length)).getD 0) ∧
    (sub ≠ 0 →
        (computeBounds tr).last_frame = idx ∧
        (computeBounds tr).last_subframe_excl = sub) ∧
    (ss = none →
        (computeBounds tr).first_frame = 0 ∧
        (computeBounds tr).first_subframe = 0) :=
  endClamp_formula tr idx sub ss h

/-- Witness for C6: only the begin marker, at `(0, 1)`, so the end clamp is
`last_frame = 0, last_subframe_excl = 1` and the head stays `0, 0`. -/
theorem c6_end_clamp_witness :
    (computeBounds trOnlyBegin).last_frame = 0 ∧
    (computeBounds trOnlyBegin).last_subframe_excl = 1 ∧
    (computeBounds trOnlyBegin).first_frame = 0 ∧
    (computeBounds trOnlyBegin).first_subframe = 0 := by
  have h := c6_end_clamp trOnlyBegin 0 1 none (by decide)
  exact ⟨(h.2.1 (by decide)).1, (h.2.1 (by decide)).2, (h.2.2 rfl).1, (h.2.2 rfl).2⟩

/-- Claim C7, counterexample: the empty trace has no marker symbols, yet the
code does not yield it back in full — it panics (modelled by `none`). -/
theorem c7_empty_trace_counterexample :
    short_frames_strict [] ≠ some (fullOutput []) := by decide

/-- Claim C7 (amended): for every NONEMPTY trace in which no symbol name
contains either marker substring, the output yields every frame in original
order, each with its full range `[0, symbol_count)`. -/
theorem c7_nonempty_no_markers_full (tr : List Frame) (hne : tr ≠ [])
    (hnm : noMarkers tr) : short_frames_strict tr = some (fullOutput tr) := by
  have hval : validate (scanTrace tr) = (none, none) := by
    rw [scan_none_of_noMarkers hnm]
    rfl
  exact output_default hne (computeBounds_default hval)

/-- Witness for C7 on a marker-free two-frame trace (one frame
unresolved). -/
theorem c7_nonempty_no_markers_full_witness :
    short_frames_strict trPlain = some (fullOutput trPlain) :=
  c7_nonempty_no_markers_full trPlain (by decide) (by decide)

/-- Claim C8: boundary scenario A yields exactly `[(frame2, 0..2)]`, and
boundary scenario B resolves the start to `first_frame = 1,
first_subframe = 1`. -/
theorem c8_boundary_scenarios :
    short_frames_strict trScenarioA = some [(⟨2, [mkSym "a", mkSym "b"]⟩, 0, 2)] ∧
    (computeBounds trScenarioB).first_frame = 1 ∧
    (computeBounds trScenarioB).first_subframe = 1 := by
  exact ⟨by decide, by decide, by decide⟩

/-- Claim C9: the resolver is deterministic (equal traces give equal
results) and read-only — the frames it emits are the input's own frames,
unmodified and in order (a contiguous segment of the input list). -/
theorem c9_deterministic_readonly :
    (∀ tr₁ tr₂ : List Frame, tr₁ = tr₂ →
        short_frames_strict tr₁ = short_frames_strict tr₂) ∧
    (∀ (tr : List Frame) (out : List (Frame × Nat × Nat)),
        short_frames_strict tr = some out →
        ∃ pre post, tr = pre ++ out.map (fun p => p.1) ++ post) := by
  constructor
  · intro tr₁ tr₂ h
    rw [h]
  · intro tr out h
    rw [short_frames_strict_eq] at h
    split at h
    case isFalse => exact absurd h (by simp)
    case isTrue hc =>
      have hout : emitOutput (computeBounds tr) tr = out := by injection h
      subst hout
      refine ⟨tr.take (computeBounds tr).first_frame,
        (tr.drop (computeBounds tr).first_frame).drop
          ((computeBounds tr).last_frame + 1 - (computeBounds tr).first_frame), ?_⟩
      have hmap : (emitOutput (computeBounds tr) tr).map (fun p => p.1) =
          (tr.drop (computeBounds tr).first_frame).take
            ((computeBounds tr).last_frame + 1 - (computeBounds tr).first_frame) := by
        unfold emitOutput
        rw [List.map_map, List.enum]
        exact enumFrom_map_comp_snd (fun f : Frame => f) _ 0 |>.trans (List.map_id _)
      rw [hmap, List.append_assoc, List.take_append_drop, List.take_append_drop]

/-- Witness for C9 at scenario A: the emitted frame is literally frame 2 of
the input. -/
theorem c9_deterministic_readonly_witness :
    short_frames_strict trScenarioA = short_frames_strict trScenarioA ∧
    ∃ pre post, trScenarioA =
      pre ++ ([((⟨2, [mkSym "a", mkSym "b"]⟩ : Frame), 0, 2)].map (fun p => p.1)) ++ post :=
  ⟨c9_deterministic_readonly.1 trScenarioA trScenarioA rfl,
   c9_deterministic_readonly.2 trScenarioA _ (by decide)⟩

/-- Claim C10: a correctly ordered end/begin pair — end match at `(0,0)`,
begin match at `(2,0)` — is invalidated by one further end match at `(3,0)`
after the begin marker: last-occurrence selection happens before order
validation, so the scan records `(3,0) > (2,0)`, both clamps are discarded,
and the full unclamped trace is yielded. -/
theorem c10_spurious_end_marker_invalidates :
    ((0, 0) ∈ endMatchPositions trSpurious ∧ (2, 0) ∈ beginMatchPositions trSpurious ∧
      ¬posGtP ((0 : Nat), (0 : Nat)) ((2 : Nat), (0 : Nat))) ∧
    (3, 0) ∈ endMatchPositions trSpurious ∧
    posGtP ((3 : Nat), (0 : Nat)) ((2 : Nat), (0 : Nat)) ∧
    scanTrace trSpurious = (some (3, 0), some (2, 0)) ∧
    short_frames_strict trSpurious = some (fullOutput trSpurious) := by
  exact ⟨⟨by decide, by decide, by decide⟩, by decide, by decide, by decide, by decide⟩

end BacktraceExt
